import Mathlib

/-!
Shallow embedding of `wasm/mx.wasm/mx_wasm.py` (GraalWasm build plugin for the
mx build tool), together with proofs about its source-to-artifact mapping and
its build task.

Strings of the Python code are modelled as `List Char` (`Str`), so that the
suffix test `filename.endswith(".c")` becomes `str ".c" <:+ filename` and the
Python slice `filename[:-2]` becomes `List.take (length - 2)`.

The filesystem seen by `os.walk` is modelled as a finite directory tree
(`FSTree`): a directory holds a list of regular-file names and a list of named
subdirectories.  `os.walk` is modelled by `osWalk`, which yields the same
`(root, dirs, files)` triples in the same top-down order; walking a path that
does not exist on the filesystem yields nothing, matching `os.walk`'s default
behaviour of swallowing the listing error (its default `onerror` is `None`).

Effectful steps of `build` (`mkdir_p`, `mx.log`, `mx.run`) are recorded as an
event trace (`BuildEvent`), and `mx.abort` is modelled by the `aborted` field
of the resulting `BuildOutcome` (abort terminates the build, so no events
follow it).  The success of an external `mx.run` invocation is a parameter
`runOk`; when it reports failure, `mx.run` aborts the build.
-/

abbrev Str := List Char

def str (s : String) : Str := s.toList

/-- `os.path.join` specialised to a relative second component, as used
throughout the plugin (joined names come from directory walks and literals,
never absolute paths). -/
def pathJoin (a b : Str) : Str :=
  if a = [] then b
  else if a.getLast? = some '/' then a ++ b
  else a ++ '/' :: b

/-- `remove_extension` (mx_wasm.py lines 60-64): strip a trailing `".c"`,
aborting with `"Unknown extension: "` otherwise.  `mx.abort` is modelled by
`Except.error`. -/
def remove_extension (filename : Str) : Except Str Str :=
  if str ".c" <:+ filename then Except.ok (filename.take (filename.length - 2))
  else Except.error (str "Unknown extension: " ++ filename)

mutual

/-- A directory on the filesystem: regular-file names plus named
subdirectories. -/
inductive FSTree : Type where
  | node : List Str → FSForest → FSTree

/-- The named subdirectories of a directory, in listing order. -/
inductive FSForest : Type where
  | nil : FSForest
  | cons : Str → FSTree → FSForest → FSForest

end

def dirNames : FSForest → List Str
  | .nil => []
  | .cons name _ rest => name :: dirNames rest

mutual

/-- `os.walk` on an existing directory tree rooted at `path`: top-down, the
directory itself first (as a `(root, dirs, files)` triple), then each
subdirectory recursively, in listing order. -/
def walkTree (path : Str) : FSTree → List (Str × List Str × List Str)
  | .node files subdirs => (path, dirNames subdirs, files) :: walkForest path subdirs

def walkForest (path : Str) : FSForest → List (Str × List Str × List Str)
  | .nil => []
  | .cons name t rest => walkTree (pathJoin path name) t ++ walkForest path rest

end

mutual

/-- All regular files anywhere under a directory tree rooted at `path`, at any
depth, as `(containing directory, filename)` pairs. -/
def treeFiles (path : Str) : FSTree → List (Str × Str)
  | .node files subdirs =>
      files.map (fun f => (path, f)) ++ forestFiles path subdirs

def forestFiles (path : Str) : FSForest → List (Str × Str)
  | .nil => []
  | .cons name t rest => treeFiles (pathJoin path name) t ++ forestFiles path rest

end

/-- The filesystem, as seen from a root path: `none` when the path does not
exist, otherwise the directory tree found there. -/
abbrev FileSystem := Str → Option FSTree

/-- `os.walk(rootPath)`: walking a nonexistent root yields nothing (`os.walk`'s
default `onerror=None` swallows the listing error). -/
def osWalk (rootPath : Str) (root : Option FSTree) : List (Str × List Str × List Str) :=
  match root with
  | none => []
  | some t => walkTree rootPath t

/-- The inner loop of `getSources` (mx_wasm.py lines 88-92): for each walk
triple, yield `(root, filename)` for every file whose name ends in `".c"`, in
order. -/
def sourcesOfWalk : List (Str × List Str × List Str) → List (Str × Str)
  | [] => []
  | (root, _dirs, files) :: rest =>
      (files.filter (fun f => decide (str ".c" <:+ f))).map (fun f => (root, f))
        ++ sourcesOfWalk rest

/-- `GraalWasmSourceFileProject` (mx_wasm.py lines 66-112): the fields its
path computations read.  `output_base` models `self.get_output_base()`. -/
structure GraalWasmSourceFileProject : Type where
  dir : Str
  name : Str
  subDir : Str
  output_base : Str

/-- `getSourceDir` (line 82-83): `os.path.join(self.dir, "src", self.name, self.subDir)`. -/
def getSourceDir (p : GraalWasmSourceFileProject) : Str :=
  pathJoin (pathJoin (pathJoin p.dir (str "src")) p.name) p.subDir

/-- `getOutputDir` (line 85-86): `os.path.join(self.get_output_base(), self.name)`. -/
def getOutputDir (p : GraalWasmSourceFileProject) : Str :=
  pathJoin p.output_base p.name

/-- `getSources` (lines 88-92): walk the source directory and yield the
`(root, filename)` pairs of the `.c` files. -/
def getSources (p : GraalWasmSourceFileProject) (fs : FileSystem) : List (Str × Str) :=
  sourcesOfWalk (osWalk (getSourceDir p) (fs (getSourceDir p)))

/-- `getResults` (lines 94-97): one `.wasm` path per source unit, under the
output directory.  `remove_extension` can abort, hence `Except`. -/
def getResults (p : GraalWasmSourceFileProject) (fs : FileSystem) : Except Str (List Str) :=
  (getSources p fs).mapM (fun rf =>
    (remove_extension rf.2).map (fun base => pathJoin (getOutputDir p) (base ++ str ".wasm")))

/-- The result path of `getResults` as a function of the source filename alone:
the source unit's containing directory does not occur in it. -/
def resultPath (p : GraalWasmSourceFileProject) (filename : Str) : Str :=
  pathJoin (getOutputDir p) (filename.take (filename.length - 2) ++ str ".wasm")

/-- An observable effect of `build`: a `mkdir_p`, an `mx.log`, or an `mx.run`
of a command line. -/
inductive BuildEvent : Type where
  | mkdirP : Str → BuildEvent
  | log : Str → BuildEvent
  | run : List Str → BuildEvent
deriving DecidableEq

def BuildEvent.isRun : BuildEvent → Bool
  | .run _ => true
  | _ => false

/-- What a call to `build` did: the events it performed, in order, and the
`mx.abort` message if it aborted (no events follow an abort). -/
structure BuildOutcome : Type where
  events : List BuildEvent
  aborted : Option Str
deriving DecidableEq

/-- The abort message of mx_wasm.py line 129. -/
def msgNoEmccDir : Str :=
  str "No EMCC_DIR specified - the source programs will not be compiled to .wat and .wasm."

/-- `mx.run`'s abort on a failed subprocess, modelled with a fixed message. -/
def msgRunFailed : Str := str "command failed"

/-- The compilation loop of `build` (lines 133-136): for each source unit, run
`[emcc_cmd] + flags + [path, "-o", output_path]`.  A `remove_extension` abort
or a failed `mx.run` aborts the loop; the failed `run` is still recorded, since
the subprocess was invoked before its exit status was seen. -/
def buildLoop (emcc_cmd : Str) (flags : List Str) (output_dir : Str)
    (runOk : List Str → Bool) : List (Str × Str) → BuildOutcome
  | [] => { events := [], aborted := none }
  | (root, filename) :: rest =>
    let path := pathJoin root filename
    match remove_extension filename with
    | .error m => { events := [], aborted := some m }
    | .ok base =>
      let output_path := pathJoin output_dir (base ++ str ".js")
      let cmd := emcc_cmd :: (flags ++ [path, str "-o", output_path])
      if runOk cmd then
        let r := buildLoop emcc_cmd flags output_dir runOk rest
        { events := BuildEvent.run cmd :: r.events, aborted := r.aborted }
      else
        { events := [BuildEvent.run cmd], aborted := some msgRunFailed }

/-- `GraalWasmSourceFileTask.build` (lines 123-136), step by step:
`mkdir_p(output_dir)`; read `EMCC_DIR` (`env_EMCC_DIR`; `None` when unset) and
abort when it is `None` or empty (Python's `if not emcc_dir`); log; then the
compilation loop over `getSources`. -/
def build (p : GraalWasmSourceFileProject) (fs : FileSystem)
    (env_EMCC_DIR : Option Str) (runOk : List Str → Bool) : BuildOutcome :=
  let source_dir := getSourceDir p
  let output_dir := getOutputDir p
  match env_EMCC_DIR with
  | none => { events := [BuildEvent.mkdirP output_dir], aborted := some msgNoEmccDir }
  | some emcc_dir =>
    if emcc_dir = [] then
      { events := [BuildEvent.mkdirP output_dir], aborted := some msgNoEmccDir }
    else
      let emcc_cmd := pathJoin emcc_dir (str "emcc")
      let flags := [str "-Os"]
      let r := buildLoop emcc_cmd flags output_dir runOk (getSources p fs)
      { events := BuildEvent.mkdirP output_dir
          :: BuildEvent.log (str "Building files from the source dir: " ++ source_dir)
          :: r.events,
        aborted := r.aborted }

/-- `needsBuild` (lines 138-139): always `(True, None)`. -/
def needsBuild : Bool × Option Str := (true, none)

/-- All regular files under a root path, `[]` when the root does not exist. -/
def allFiles (rootPath : Str) (root : Option FSTree) : List (Str × Str) :=
  match root with
  | none => []
  | some t => treeFiles rootPath t

/-- A concrete project used by closed instances below. -/
def demoProject : GraalWasmSourceFileProject :=
  { dir := str "/repo/wasm", name := str "demo", subDir := str "c",
    output_base := str "/repo/mxbuild" }

/-- A filesystem on which `demoProject`'s source directory holds `x.c` and
`y.c`. -/
def demoFS : FileSystem := fun path =>
  if path = getSourceDir demoProject then
    some (FSTree.node [str "x.c", str "y.c"] FSForest.nil)
  else none

/-- A filesystem on which `demoProject`'s source directory holds a single
regular file named exactly `".c"`. -/
def bareDotCFS : FileSystem := fun path =>
  if path = getSourceDir demoProject then
    some (FSTree.node [str ".c"] FSForest.nil)
  else none

/-- The completely empty filesystem: no path exists. -/
def emptyFS : FileSystem := fun _ => none

theorem remove_extension_of_suffix (f : Str) (h : str ".c" <:+ f) :
    remove_extension f = Except.ok (f.take (f.length - 2)) := by
  simp [remove_extension, h]

theorem remove_extension_of_not_suffix (f : Str) (h : ¬ str ".c" <:+ f) :
    remove_extension f = Except.error (str "Unknown extension: " ++ f) := by
  simp [remove_extension, h]

theorem take_sub_two_append (g : Str) :
    (g ++ str ".c").take ((g ++ str ".c").length - 2) = g := by
  have hlen : (g ++ str ".c").length - 2 = g.length := by
    have h2 : (str ".c").length = 2 := rfl
    rw [List.length_append, h2]; omega
  rw [hlen]; exact List.take_left g (str ".c")

/-- C3: for every filename ending in `".c"`, `remove_extension` succeeds and
returns the filename with exactly its last two characters (the `".c"`)
removed. -/
theorem remove_extension_strips_exactly_two (f : Str) (h : str ".c" <:+ f) :
    remove_extension f = Except.ok (f.take (f.length - 2))
    ∧ f.take (f.length - 2) ++ str ".c" = f := by
  obtain ⟨g, rfl⟩ := h
  refine ⟨remove_extension_of_suffix _ ⟨g, rfl⟩, ?_⟩
  rw [take_sub_two_append]

theorem remove_extension_strips_exactly_two_witness :
    (str ".c" <:+ str "floyd.c")
    ∧ remove_extension (str "floyd.c") = Except.ok (str "floyd")
    ∧ str "floyd" ++ str ".c" = str "floyd.c" := by
  have h := remove_extension_strips_exactly_two (str "floyd.c") (by decide)
  exact ⟨by decide, h.1.trans rfl, h.2.symm.trans rfl |>.symm⟩

/-- C4: for every filename not ending in `".c"`, `remove_extension` aborts
with the `"Unknown extension: "` error and returns no value. -/
theorem remove_extension_rejects_other_extensions (f : Str) (h : ¬ str ".c" <:+ f) :
    remove_extension f = Except.error (str "Unknown extension: " ++ f) :=
  remove_extension_of_not_suffix f h

theorem remove_extension_rejects_other_extensions_witness :
    (¬ str ".c" <:+ str "foo.h")
    ∧ remove_extension (str "foo.h") = Except.error (str "Unknown extension: foo.h") :=
  ⟨by decide, (remove_extension_rejects_other_extensions (str "foo.h") (by decide)).trans rfl⟩

/-- C5 counterexample: on `"a.c.c"` (which ends in `".c"`), `remove_extension`
returns `"a.c"`, which still ends in `".c"`, and re-applying `remove_extension`
to it succeeds — so `remove_extension` can be applied successfully twice in a
row, contrary to the claim. -/
theorem remove_extension_reapply_cex :
    (str ".c" <:+ str "a.c.c")
    ∧ remove_extension (str "a.c.c") = Except.ok (str "a.c")
    ∧ (str ".c" <:+ str "a.c")
    ∧ remove_extension (str "a.c") = Except.ok (str "a") :=
  ⟨by decide, rfl, by decide, rfl⟩

/-- C5 amended: for every filename ending in `".c"`, `remove_extension`
succeeds, its output still ends in `".c"` exactly when the filename ends in
`".c.c"`, and re-applying `remove_extension` to the output fails with the
`"Unknown extension: "` error exactly when the filename does not end in
`".c.c"`. -/
theorem remove_extension_reapply (f : Str) (h : str ".c" <:+ f) :
    remove_extension f = Except.ok (f.take (f.length - 2))
    ∧ ((str ".c" <:+ f.take (f.length - 2)) ↔ str ".c.c" <:+ f)
    ∧ (¬ str ".c.c" <:+ f →
        remove_extension (f.take (f.length - 2)) =
          Except.error (str "Unknown extension: " ++ f.take (f.length - 2))) := by
  obtain ⟨g, rfl⟩ := h
  have htake := take_sub_two_append g
  have hiff : (str ".c" <:+ g) ↔ str ".c.c" <:+ g ++ str ".c" := by
    constructor
    · rintro ⟨t, rfl⟩
      exact ⟨t, by rw [List.append_assoc]; rfl⟩
    · rintro ⟨t, ht⟩
      refine ⟨t, ?_⟩
      have ht2 : (t ++ str ".c") ++ str ".c" = g ++ str ".c" := by
        rw [List.append_assoc]; exact ht
      exact List.append_cancel_right ht2
  refine ⟨remove_extension_of_suffix _ ⟨g, rfl⟩, ?_, ?_⟩
  · rw [htake]; exact hiff
  · intro hn
    rw [htake]
    exact remove_extension_of_not_suffix g (fun hs => hn (hiff.mp hs))

theorem remove_extension_reapply_witness :
    (str ".c" <:+ str "x.c")
    ∧ remove_extension (str "x.c") = Except.ok (str "x")
    ∧ remove_extension (str "x") = Except.error (str "Unknown extension: x") := by
  have h := remove_extension_reapply (str "x.c") (by decide)
  exact ⟨by decide, h.1.trans rfl, (h.2.2 (by decide)).trans rfl⟩

theorem sourcesOfWalk_append (a b : List (Str × List Str × List Str)) :
    sourcesOfWalk (a ++ b) = sourcesOfWalk a ++ sourcesOfWalk b := by
  induction a with
  | nil => rfl
  | cons hd tl ih =>
    obtain ⟨root, dirs, files⟩ := hd
    simp [sourcesOfWalk, ih]

mutual

theorem sourcesOfWalk_walkTree (path : Str) (t : FSTree) :
    sourcesOfWalk (walkTree path t) =
      (treeFiles path t).filter (fun rf => decide (str ".c" <:+ rf.2)) := by
  cases t with
  | node files subdirs =>
    rw [walkTree, treeFiles, sourcesOfWalk, List.filter_append,
      sourcesOfWalk_walkForest path subdirs, List.filter_map]
    rfl

theorem sourcesOfWalk_walkForest (path : Str) (f : FSForest) :
    sourcesOfWalk (walkForest path f) =
      (forestFiles path f).filter (fun rf => decide (str ".c" <:+ rf.2)) := by
  cases f with
  | nil => rfl
  | cons name t rest =>
    rw [walkForest, forestFiles, sourcesOfWalk_append, List.filter_append,
      sourcesOfWalk_walkTree (pathJoin path name) t, sourcesOfWalk_walkForest path rest]

end

/-- C8: `getSources` yields exactly the regular files anywhere under the
source root, at any depth, whose filename ends in `".c"`, each as a
`(containing directory, filename)` pair — it is the `".c"`-filter of all the
files under the root. -/
theorem getSources_eq_filter_allFiles (p : GraalWasmSourceFileProject) (fs : FileSystem) :
    getSources p fs =
      (allFiles (getSourceDir p) (fs (getSourceDir p))).filter
        (fun rf => decide (str ".c" <:+ rf.2)) := by
  unfold getSources allFiles osWalk
  cases fs (getSourceDir p) with
  | none => rfl
  | some t => exact sourcesOfWalk_walkTree _ t

/-- C9: when the source root does not exist on the filesystem, `getSources`
yields the empty sequence (and raises no error — it is a total function). -/
theorem getSources_missing_root (p : GraalWasmSourceFileProject) (fs : FileSystem)
    (h : fs (getSourceDir p) = none) : getSources p fs = [] := by
  unfold getSources
  rw [h]
  rfl

theorem getSources_missing_root_witness :
    getSources demoProject emptyFS = [] :=
  getSources_missing_root demoProject emptyFS rfl

theorem mem_sourcesOfWalk_endsWith (w : List (Str × List Str × List Str)) :
    ∀ rf ∈ sourcesOfWalk w, str ".c" <:+ rf.2 := by
  induction w with
  | nil => intro rf hrf; simp [sourcesOfWalk] at hrf
  | cons hd tl ih =>
    obtain ⟨root, dirs, files⟩ := hd
    intro rf hrf
    rw [sourcesOfWalk, List.mem_append] at hrf
    rcases hrf with h1 | h2
    · obtain ⟨f, hf, rfl⟩ := List.mem_map.mp h1
      have := (List.mem_filter.mp hf).2
      simpa using this
    · exact ih rf h2

theorem mem_getSources_endsWith (p : GraalWasmSourceFileProject) (fs : FileSystem) :
    ∀ rf ∈ getSources p fs, str ".c" <:+ rf.2 :=
  mem_sourcesOfWalk_endsWith _

theorem buildLoop_all_ok (emcc_cmd : Str) (flags : List Str) (output_dir : Str)
    (runOk : List Str → Bool) (hrun : ∀ c, runOk c = true) :
    ∀ l : List (Str × Str), (∀ rf ∈ l, str ".c" <:+ rf.2) →
    buildLoop emcc_cmd flags output_dir runOk l =
      { events := l.map (fun rf => BuildEvent.run
          (emcc_cmd :: (flags ++ [pathJoin rf.1 rf.2, str "-o",
            pathJoin output_dir (rf.2.take (rf.2.length - 2) ++ str ".js")]))),
        aborted := none } := by
  intro l
  induction l with
  | nil => intro _; rfl
  | cons hd tl ih =>
    obtain ⟨root, filename⟩ := hd
    intro hl
    have h1 : str ".c" <:+ filename := hl _ (List.mem_cons_self _ _)
    rw [buildLoop, remove_extension_of_suffix filename h1]
    simp only [hrun, if_true, ih (fun rf hrf => hl rf (List.mem_cons_of_mem _ hrf)),
      List.map_cons]

theorem mapM_wasm_paths (p : GraalWasmSourceFileProject) :
    ∀ l : List (Str × Str), (∀ rf ∈ l, str ".c" <:+ rf.2) →
    l.mapM (fun rf =>
        (remove_extension rf.2).map (fun base => pathJoin (getOutputDir p) (base ++ str ".wasm")))
      = Except.ok (l.map (fun rf => resultPath p rf.2)) := by
  intro l
  induction l with
  | nil => intro _; rfl
  | cons hd tl ih =>
    intro hl
    have h1 : str ".c" <:+ hd.2 := hl _ (List.mem_cons_self _ _)
    rw [List.mapM_cons, remove_extension_of_suffix hd.2 h1,
      ih (fun rf hrf => hl rf (List.mem_cons_of_mem _ hrf))]
    rfl

/-- C1: with `EMCC_DIR` set (nonempty) and every subprocess succeeding,
`build` creates the output directory, logs, and then invokes the external
compiler exactly once per enumerated source unit, in enumeration order, with
the command `[<emccDir>/emcc, "-Os", <root>/<filename>, "-o",
<outputDir>/<filename minus ".c">.js]`, and does not abort. -/
theorem build_invokes_emcc_once_per_source (p : GraalWasmSourceFileProject)
    (fs : FileSystem) (emcc_dir : Str) (runOk : List Str → Bool)
    (hd : emcc_dir ≠ []) (hrun : ∀ c, runOk c = true) :
    build p fs (some emcc_dir) runOk =
      { events := BuildEvent.mkdirP (getOutputDir p)
          :: BuildEvent.log (str "Building files from the source dir: " ++ getSourceDir p)
          :: (getSources p fs).map (fun rf => BuildEvent.run
              [pathJoin emcc_dir (str "emcc"), str "-Os", pathJoin rf.1 rf.2, str "-o",
               pathJoin (getOutputDir p) (rf.2.take (rf.2.length - 2) ++ str ".js")]),
        aborted := none } := by
  rw [build, if_neg hd]
  dsimp only
  rw [buildLoop_all_ok (pathJoin emcc_dir (str "emcc")) [str "-Os"] (getOutputDir p) runOk hrun
    (getSources p fs) (mem_getSources_endsWith p fs)]
  rfl

theorem build_invokes_emcc_once_per_source_witness :
    (str "/emsdk" ≠ ([] : Str)) ∧
    build demoProject demoFS (some (str "/emsdk")) (fun _ => true) =
      { events := [BuildEvent.mkdirP (str "/repo/mxbuild/demo"),
          BuildEvent.log (str "Building files from the source dir: /repo/wasm/src/demo/c"),
          BuildEvent.run [str "/emsdk/emcc", str "-Os", str "/repo/wasm/src/demo/c/x.c",
            str "-o", str "/repo/mxbuild/demo/x.js"],
          BuildEvent.run [str "/emsdk/emcc", str "-Os", str "/repo/wasm/src/demo/c/y.c",
            str "-o", str "/repo/mxbuild/demo/y.js"]],
        aborted := none } :=
  ⟨by decide, by
    rw [build_invokes_emcc_once_per_source demoProject demoFS (str "/emsdk") (fun _ => true)
      (by decide) (fun c => rfl)]
    decide⟩

/-- C2: `getResults` yields exactly one path per enumerated source unit,
namely `resultPath`, i.e. `<output-base>/<project-name>/<baseName>.wasm` —
a function of the source filename only, so the source unit's subdirectory
(root) component does not occur in the result path and two same-named files
in different source subdirectories map to the same result path. -/
theorem getResults_one_wasm_per_source (p : GraalWasmSourceFileProject) (fs : FileSystem) :
    getResults p fs = Except.ok ((getSources p fs).map (fun rf => resultPath p rf.2)) :=
  mapM_wasm_paths p (getSources p fs) (mem_getSources_endsWith p fs)

/-- C6 counterexample: with `EMCC_DIR` unset, `build` on a concrete project
aborts, but only after having performed the `mkdir_p` of the output
directory — the claim that the abort happens without any attempt to create the
output directory is false. -/
theorem build_missing_emcc_mkdir_cex :
    (build demoProject demoFS none (fun _ => true)).aborted = some msgNoEmccDir
    ∧ BuildEvent.mkdirP (getOutputDir demoProject)
        ∈ (build demoProject demoFS none (fun _ => true)).events := by
  exact ⟨rfl, by decide⟩

/-- C6 amended: `build` ensures the output directory exists (`mkdir_p`)
*before* resolving `EMCC_DIR`; when `EMCC_DIR` is absent it aborts having
already attempted to create the output directory, and performs nothing
else — no logging and no compilation. -/
theorem build_mkdir_precedes_emcc_check (p : GraalWasmSourceFileProject)
    (fs : FileSystem) (runOk : List Str → Bool) :
    build p fs none runOk =
      { events := [BuildEvent.mkdirP (getOutputDir p)], aborted := some msgNoEmccDir } :=
  rfl

/-- C7: whenever `EMCC_DIR` is unset (`none`) or empty (`some []`), `build`
fails fatally with the missing-toolchain abort message and invokes the
external compiler zero times (none of its events is a `run`). -/
theorem build_missing_toolchain_no_compile (p : GraalWasmSourceFileProject)
    (fs : FileSystem) (runOk : List Str → Bool) (env : Option Str)
    (h : env = none ∨ env = some []) :
    (build p fs env runOk).aborted = some msgNoEmccDir
    ∧ (build p fs env runOk).events.all (fun e => ! BuildEvent.isRun e) = true := by
  rcases h with rfl | rfl
  · exact ⟨rfl, rfl⟩
  · exact ⟨rfl, rfl⟩

theorem build_missing_toolchain_no_compile_witness :
    (build demoProject demoFS none (fun _ => true)).aborted = some msgNoEmccDir
    ∧ (build demoProject demoFS none (fun _ => true)).events.all
        (fun e => ! BuildEvent.isRun e) = true :=
  build_missing_toolchain_no_compile demoProject demoFS (fun _ => true) none (Or.inl rfl)

/-- C10: a regular file named exactly `".c"` is enumerated as a source unit;
`remove_extension` maps it to the empty base name without error; the declared
result is `<outputDir>/.wasm`; and the compile target passed to the external
compiler is `<outputDir>/.js`. -/
theorem bare_dotc_filename_supported :
    getSources demoProject bareDotCFS = [(getSourceDir demoProject, str ".c")]
    ∧ remove_extension (str ".c") = Except.ok []
    ∧ getResults demoProject bareDotCFS
        = Except.ok [pathJoin (getOutputDir demoProject) (str ".wasm")]
    ∧ (build demoProject bareDotCFS (some (str "/emsdk")) (fun _ => true)).events =
        [BuildEvent.mkdirP (getOutputDir demoProject),
         BuildEvent.log (str "Building files from the source dir: " ++ getSourceDir demoProject),
         BuildEvent.run [pathJoin (str "/emsdk") (str "emcc"), str "-Os",
           pathJoin (getSourceDir demoProject) (str ".c"), str "-o",
           pathJoin (getOutputDir demoProject) (str ".js")]] := by
  refine ⟨by decide, rfl, rfl, by decide⟩
